import Mathlib

/-!
Shallow embedding of the query engine of the ProfitPrincess API
(`vercel_app.py`): the record model, the filter engine (`filter_income`),
the sort engine (`sort_income`) and the orchestrator route body
(`filter_sort_income`), together with proofs of the specified properties.

Numbers (Python ints and finite floats, as produced by `json.loads`) are
modelled as rationals; strings as Lean strings compared by code points;
Python exceptions as an explicit error type threaded through `Except`.
-/

set_option maxHeartbeats 1000000

namespace ProfitPrincess

/-- Scalar value stored in a record field: a JSON number or a string. -/
inductive Value where
  | num (q : ℚ)
  | str (s : String)
deriving DecidableEq

/-- Value appearing in the filter mapping handed to `filter_income`: a
number, a string, or a two-element numeric array as produced by an
unexpanded `fields` entry of the query payload. -/
inductive FVal where
  | num (q : ℚ)
  | str (s : String)
  | arr (l : List ℚ)
deriving DecidableEq

/-- Python exceptions the engine can raise. `invalidField` models the
`ValueError(f"Invalid field ...")` raised by `sort_income`, carrying the
offending field name. -/
inductive Err where
  | typeError
  | valueError
  | keyError
  | invalidField (field : String)
deriving DecidableEq

instance exceptDecEq {ε α : Type} [DecidableEq ε] [DecidableEq α] :
    DecidableEq (Except ε α) := fun x y =>
  match x, y with
  | .ok a, .ok b =>
    if h : a = b then .isTrue (by rw [h])
    else .isFalse (fun hc => by injection hc; exact h (by assumption))
  | .error a, .error b =>
    if h : a = b then .isTrue (by rw [h])
    else .isFalse (fun hc => by injection hc; exact h (by assumption))
  | .ok _, .error _ => .isFalse (fun hc => by injection hc)
  | .error _, .ok _ => .isFalse (fun hc => by injection hc)

/-- A record: a Python dict from field names to scalar values, with the
keys pairwise distinct in any dict actually built by `json.loads`. -/
abbrev Record := List (String × Value)

/-- The filter mapping (`filter_fields` in the source). -/
abbrev FDict := List (String × FVal)

/-- `record.get(field)` on a dict: the value at the first matching key. -/
def getV (r : Record) (field : String) : Option Value :=
  (r.find? (fun kv => kv.1 == field)).map (fun kv => kv.2)

/-- `filter_fields.get(key)`. -/
def getF (F : FDict) (key : String) : Option FVal :=
  (F.find? (fun kv => kv.1 == key)).map (fun kv => kv.2)

/-! ### Python `int(...)` applied to a string -/

/-- ASCII whitespace stripped by Python `int()`. -/
def pyWs (c : Char) : Bool :=
  c == ' ' || c == '\t' || c == '\n' || c == '\r' || c == '\u000B' || c == '\u000C'

def stripWs (l : List Char) : List Char :=
  ((l.dropWhile pyWs).reverse.dropWhile pyWs).reverse

/-- Body of a Python integer literal after the optional sign: digits with
single underscores allowed between digits. -/
def pyDigits : List Char → Bool
  | [] => true
  | '_' :: [] => false
  | '_' :: c :: rest => c.isDigit && pyDigits rest
  | c :: rest => c.isDigit && pyDigits rest

/-- Numeric value of a digit-and-underscore body. -/
def digitVal (l : List Char) : ℕ :=
  l.foldl (fun n c => if c == '_' then n else n * 10 + (c.toNat - 48)) 0

def pyNat? (l : List Char) : Option ℕ :=
  match l with
  | [] => none
  | c :: _ => if c.isDigit && pyDigits l then some (digitVal l) else none

/-- `int(s)` on a string: `some` the parsed integer, `none` for the
`ValueError` cases. -/
def pyInt? (l : List Char) : Option ℤ :=
  match stripWs l with
  | '+' :: rest => (pyNat? rest).map (fun n => (n : ℤ))
  | '-' :: rest => (pyNat? rest).map (fun n => -(n : ℤ))
  | rest => (pyNat? rest).map (fun n => (n : ℤ))

/-! ### Python comparisons used by the filter engine

`min_value <= record.get(base_field, float('inf')) <= max_value` compares
the filter bounds with the record value, a missing field standing for
`+inf`; comparing a number with a string, or a list with anything here,
raises `TypeError`. Python strings compare lexicographically by code
points. -/

def charListLT : List Char → List Char → Bool
  | [], [] => false
  | [], _ :: _ => true
  | _ :: _, [] => false
  | a :: as, b :: bs => if a < b then true else if b < a then false else charListLT as bs

/-- Python `<=` on strings. -/
def strLE (a b : String) : Bool := !charListLT b.data a.data

/-- `min_value <= x` where `x` is the record value, `none` meaning the
`float('inf')` default for a missing field. -/
def leLo (minv : FVal) (x : Option Value) : Except Err Bool :=
  match minv, x with
  | .num _, none => .ok true
  | .num q, some (.num v) => .ok (decide (q ≤ v))
  | .num _, some (.str _) => .error .typeError
  | .str a, some (.str b) => .ok (strLE a b)
  | .str _, _ => .error .typeError
  | .arr _, _ => .error .typeError

/-- `x <= max_value` where `x` is the record value, `none` meaning the
`float('inf')` default for a missing field. -/
def leHi (x : Option Value) (maxv : FVal) : Except Err Bool :=
  match x, maxv with
  | none, .num _ => .ok false
  | some (.num v), .num q => .ok (decide (v ≤ q))
  | some (.str _), .num _ => .error .typeError
  | some (.str a), .str b => .ok (strLE a b)
  | some (.num _), .str _ => .error .typeError
  | none, .str _ => .error .typeError
  | _, .arr _ => .error .typeError

/-! ### The filter engine (`filter_income`) -/

/-- A Python list comprehension `[r for r in l if p r]` whose condition
can raise: evaluated left to right, the first raise aborts. -/
def filterE (p : Record → Except Err Bool) : List Record → Except Err (List Record)
  | [] => .ok []
  | r :: rest =>
    match p r with
    | .error e => .error e
    | .ok b =>
      match filterE p rest with
      | .error e => .error e
      | .ok rest2 => .ok (if b then r :: rest2 else rest2)

/-- `record.get("date", "0000-00-00")`, which must be a string for the
`[:4]` slice to work (`TypeError` on a number). -/
def dateStr (r : Record) : Except Err String :=
  match getV r "date" with
  | none => .ok "0000-00-00"
  | some (.str s) => .ok s
  | some (.num _) => .error .typeError

/-- The per-record condition of the date branch:
`min_year <= int(record.get("date", "0000-00-00")[:4]) <= max_year`,
with Python's left-to-right short-circuit of the chained comparison. -/
def dateKeep (minv maxv : FVal) (r : Record) : Except Err Bool :=
  match dateStr r with
  | .error e => .error e
  | .ok s =>
    match pyInt? (s.data.take 4) with
    | none => .error .valueError
    | some y =>
      match leLo minv (some (.num (y : ℚ))) with
      | .error e => .error e
      | .ok false => .ok false
      | .ok true => leHi (some (.num (y : ℚ))) maxv

/-- The per-record condition of the numeric branch:
`min_value <= record.get(base_field, float('inf')) <= max_value`. -/
def numKeep (base : String) (minv maxv : FVal) (r : Record) : Except Err Bool :=
  match leLo minv (getV r base) with
  | .error e => .error e
  | .ok false => .ok false
  | .ok true => leHi (getV r base) maxv

/-- `field[:-4]`. -/
def dropLast4 (s : String) : String :=
  ⟨s.data.dropLast.dropLast.dropLast.dropLast⟩

/-- `field.endswith(suf)`. -/
def hasSuffix (s suf : String) : Bool :=
  decide (suf.data <:+ s.data)

/-- One iteration of the `for field, value in filter_fields.items()` loop:
a key ending in `_min` whose `_max` partner is present applies the date or
numeric range filter; every other key leaves the data unchanged. -/
def applyOne (F : FDict) (field : String) (v : FVal) (cur : List Record) :
    Except Err (List Record) :=
  if hasSuffix field "_min" then
    match getF F (dropLast4 field ++ "_max") with
    | none => .ok cur
    | some maxv =>
      if dropLast4 field == "date" then filterE (dateKeep v maxv) cur
      else filterE (numKeep (dropLast4 field) v maxv) cur
  else .ok cur

/-- The loop of `filter_income`, iterating over the entries of the filter
mapping while looking partners up in the full mapping `F`. -/
def filterSteps (F : FDict) : List (String × FVal) → List Record → Except Err (List Record)
  | [], cur => .ok cur
  | kv :: rest, cur =>
    match applyOne F kv.1 kv.2 cur with
    | .error e => .error e
    | .ok cur2 => filterSteps F rest cur2

/-- `filter_income(data, filter_fields)` from `vercel_app.py`. -/
def filter_income (data : List Record) (filter_fields : FDict) :
    Except Err (List Record) :=
  filterSteps filter_fields filter_fields data

/-! ### The sort engine (`sort_income`) -/

/-- The sort key of one record:
`int(x[field][:4]) if field == 'date' and isinstance(x[field], str) else x[field]`.
A record without the field raises `KeyError`; an unparsable year raises
`ValueError`. -/
def keyOf (field : String) (r : Record) : Except Err Value :=
  match getV r field with
  | none => .error .keyError
  | some v =>
    if field == "date" then
      match v with
      | .str s =>
        match pyInt? (s.data.take 4) with
        | some y => .ok (.num (y : ℚ))
        | none => .error .valueError
      | .num q => .ok (.num q)
    else .ok v

def keyPair (field : String) (r : Record) : Except Err (Value × Record) :=
  match keyOf field r with
  | .error e => .error e
  | .ok k => .ok (k, r)

/-- CPython's `sorted(..., key=...)` computes the key of every element, in
list order, before any comparison; the first raise aborts. -/
def mapE (f : Record → Except Err (Value × Record)) :
    List Record → Except Err (List (Value × Record))
  | [] => .ok []
  | a :: l =>
    match f a with
    | .error e => .error e
    | .ok b =>
      match mapE f l with
      | .error e => .error e
      | .ok bs => .ok (b :: bs)

def isNum : Value → Bool
  | .num _ => true
  | .str _ => false

def isStr : Value → Bool
  | .str _ => true
  | .num _ => false

/-- Sorting a list of keys that mixes numbers and strings always raises
`TypeError` in CPython (some adjacent or merged pair gets compared);
a homogeneous key list never does. -/
def allSameKind (ks : List Value) : Bool := ks.all isNum || ks.all isStr

/-- Python `<` on sort keys (within one kind; mixed kinds never reach a
comparison because `allSameKind` is checked first). -/
def vLT (a b : Value) : Bool :=
  match a, b with
  | .num x, .num y => decide (x < y)
  | .str x, .str y => charListLT x.data y.data
  | _, _ => false

/-- A sort key paired with its record. -/
abbrev KR := Value × Record

def kLT (a b : KR) : Bool := vLT a.1 b.1

/-- Stable insertion: the new element, which precedes the list elements in
the original input, goes before the first element not below it. -/
def insertK (a : KR) : List KR → List KR
  | [] => [a]
  | b :: l => if kLT b a then b :: insertK a l else a :: b :: l

/-- Stable ascending sort by key: extensionally equal to CPython's stable
sort for the homogeneous key lists on which it is ever invoked. -/
def isortK : List KR → List KR
  | [] => []
  | a :: l => insertK a (isortK l)

/-- `sorted(pairs, reverse=not ascending)`: CPython implements
`reverse=True` by reversing the (key-decorated) list before and after an
ascending stable sort. -/
def pysortK (ascending : Bool) (l : List KR) : List KR :=
  if ascending then isortK l else (isortK l.reverse).reverse

/-- `sort_income(data, field, ascending)` from `vercel_app.py`. -/
def sort_income (data : List Record) (field : String) (ascending : Bool) :
    Except Err (List Record) :=
  match data with
  | [] => .ok []
  | r0 :: rest =>
    if (getV r0 field).isNone then .error (.invalidField field)
    else
      match mapE (keyPair field) (r0 :: rest) with
      | .error e => .error e
      | .ok keyed =>
        if allSameKind (keyed.map (fun p => p.1)) then
          .ok ((pysortK ascending keyed).map (fun p => p.2))
        else .error .typeError

/-! ### The orchestrator (`filter_sort_income` route body)

After `json.loads`, the route reads `sort_field`, `ascending` and `fields`
from the payload and runs `filter_income` on the raw `fields` mapping,
then `sort_income` when `sort_field` is present and truthy (a missing or
empty `sort_field` skips sorting). -/

def filter_sort_income (data : List Record) (sort_field : Option String)
    (ascending : Bool) (fields : FDict) : Except Err (List Record) :=
  match filter_income data fields with
  | .error e => .error e
  | .ok fd =>
    match sort_field with
    | none => .ok fd
    | some f => if f == "" then .ok fd else sort_income fd f ascending

/-! ### Lemmas about the filter engine -/

theorem filterE_ok_sublist {p : Record → Except Err Bool} :
    ∀ {l l' : List Record}, filterE p l = .ok l' → l'.Sublist l := by
  intro l
  induction l with
  | nil =>
    intro l' h
    simp only [filterE] at h
    cases h
    exact List.Sublist.refl []
  | cons r rest ih =>
    intro l' h
    simp only [filterE] at h
    cases hp : p r with
    | error e => simp [hp] at h
    | ok b =>
      rw [hp] at h
      cases hrec : filterE p rest with
      | error e => simp [hrec] at h
      | ok rest2 =>
        rw [hrec] at h
        simp only [Except.ok.injEq] at h
        subst h
        cases b with
        | true => exact (ih hrec).cons₂ r
        | false => exact (ih hrec).cons r

theorem filterE_ok_mem_true {p : Record → Except Err Bool} :
    ∀ {l l' : List Record}, filterE p l = .ok l' → ∀ r ∈ l', p r = .ok true := by
  intro l
  induction l with
  | nil =>
    intro l' h
    simp only [filterE] at h
    cases h
    intro r hr
    cases hr
  | cons r rest ih =>
    intro l' h
    simp only [filterE] at h
    cases hp : p r with
    | error e => simp [hp] at h
    | ok b =>
      rw [hp] at h
      cases hrec : filterE p rest with
      | error e => simp [hrec] at h
      | ok rest2 =>
        rw [hrec] at h
        simp only [Except.ok.injEq] at h
        subst h
        intro x hx
        cases b with
        | true =>
          simp at hx
          rcases hx with h1 | h2
          · subst h1; exact hp
          · exact ih hrec x h2
        | false =>
          simp at hx
          exact ih hrec x hx

theorem filterE_ok_defined {p : Record → Except Err Bool} :
    ∀ {l l' : List Record}, filterE p l = .ok l' → ∀ r ∈ l, ∃ b, p r = .ok b := by
  intro l
  induction l with
  | nil => intro l' _ r hr; cases hr
  | cons r rest ih =>
    intro l' h
    simp only [filterE] at h
    cases hp : p r with
    | error e => simp [hp] at h
    | ok b =>
      rw [hp] at h
      cases hrec : filterE p rest with
      | error e => simp [hrec] at h
      | ok rest2 =>
        intro x hx
        rcases List.mem_cons.mp hx with h1 | h2
        · subst h1; exact ⟨b, hp⟩
        · exact ih hrec x h2

theorem filterE_of_all_true {p : Record → Except Err Bool} :
    ∀ {l : List Record}, (∀ r ∈ l, p r = .ok true) → filterE p l = .ok l := by
  intro l
  induction l with
  | nil => intro _; rfl
  | cons r rest ih =>
    intro h
    have hr : p r = .ok true := h r (List.mem_cons_self r rest)
    have hrest : filterE p rest = .ok rest := ih (fun x hx => h x (List.mem_cons_of_mem r hx))
    simp [filterE, hr, hrest]

theorem filterE_eq_filter {p : Record → Except Err Bool} :
    ∀ {l : List Record}, (∀ r ∈ l, ∃ b, p r = .ok b) →
      filterE p l = .ok (l.filter (fun r => decide (p r = .ok true))) := by
  intro l
  induction l with
  | nil => intro _; rfl
  | cons r rest ih =>
    intro h
    obtain ⟨b, hb⟩ := h r (List.mem_cons_self r rest)
    have hrest := ih (fun x hx => h x (List.mem_cons_of_mem r hx))
    cases b with
    | true => simp [filterE, hb, hrest, List.filter_cons]
    | false => simp [filterE, hb, hrest, List.filter_cons]

theorem filterE_error_of_mem {p : Record → Except Err Bool} {r : Record} {e : Err} :
    ∀ {l : List Record}, r ∈ l → p r = .error e →
      ∃ e2, filterE p l = .error e2 := by
  intro l
  induction l with
  | nil => intro hr; cases hr
  | cons a rest ih =>
    intro hr hpe
    rcases List.mem_cons.mp hr with h1 | h2
    · subst h1
      exact ⟨e, by simp [filterE, hpe]⟩
    · cases hp : p a with
      | error e3 => exact ⟨e3, by simp [filterE, hp]⟩
      | ok b =>
        obtain ⟨e2, he2⟩ := ih h2 hpe
        exact ⟨e2, by simp [filterE, hp, he2]⟩

theorem applyOne_ok_sublist {F : FDict} {field : String} {v : FVal}
    {cur cur2 : List Record} (h : applyOne F field v cur = .ok cur2) :
    cur2.Sublist cur := by
  unfold applyOne at h
  by_cases hs : hasSuffix field "_min" = true
  · rw [if_pos hs] at h
    cases hg : getF F (dropLast4 field ++ "_max") with
    | none =>
      rw [hg] at h
      cases h
      exact List.Sublist.refl _
    | some maxv =>
      simp only [hg] at h
      by_cases hd : (dropLast4 field == "date") = true
      · rw [if_pos hd] at h
        exact filterE_ok_sublist h
      · rw [if_neg hd] at h
        exact filterE_ok_sublist h
  · rw [if_neg hs] at h
    cases h
    exact List.Sublist.refl _

theorem applyOne_fix {F : FDict} {field : String} {v : FVal}
    {cur cur2 sub : List Record} (h : applyOne F field v cur = .ok cur2)
    (hsub : sub.Sublist cur2) : applyOne F field v sub = .ok sub := by
  unfold applyOne at h ⊢
  by_cases hs : hasSuffix field "_min" = true
  · rw [if_pos hs] at h ⊢
    cases hg : getF F (dropLast4 field ++ "_max") with
    | none => rfl
    | some maxv =>
      simp only [hg] at h ⊢
      by_cases hd : (dropLast4 field == "date") = true
      · rw [if_pos hd] at h ⊢
        exact filterE_of_all_true
          (fun r hr => filterE_ok_mem_true h r (hsub.mem hr))
      · rw [if_neg hd] at h ⊢
        exact filterE_of_all_true
          (fun r hr => filterE_ok_mem_true h r (hsub.mem hr))
  · rw [if_neg hs]

theorem filterSteps_ok_sublist {F : FDict} :
    ∀ {fs : List (String × FVal)} {cur res : List Record},
      filterSteps F fs cur = .ok res → res.Sublist cur := by
  intro fs
  induction fs with
  | nil =>
    intro cur res h
    cases h
    exact List.Sublist.refl _
  | cons kv rest ih =>
    intro cur res h
    simp only [filterSteps] at h
    cases ha : applyOne F kv.1 kv.2 cur with
    | error e => simp [ha] at h
    | ok cur2 =>
      rw [ha] at h
      exact (ih h).trans (applyOne_ok_sublist ha)

theorem filterSteps_fix {F : FDict} :
    ∀ {fs : List (String × FVal)} {cur res sub : List Record},
      filterSteps F fs cur = .ok res → sub.Sublist res →
      filterSteps F fs sub = .ok sub := by
  intro fs
  induction fs with
  | nil =>
    intro cur res sub h hsub
    rfl
  | cons kv rest ih =>
    intro cur res sub h hsub
    simp only [filterSteps] at h ⊢
    cases ha : applyOne F kv.1 kv.2 cur with
    | error e => simp [ha] at h
    | ok cur2 =>
      rw [ha] at h
      have hres : res.Sublist cur2 := filterSteps_ok_sublist h
      have h1 : applyOne F kv.1 kv.2 sub = .ok sub :=
        applyOne_fix ha (hsub.trans hres)
      rw [h1]
      exact ih h hsub

/-- Python dict union `{**F1, **F2}` of two compatible filter mappings:
F1's entries in their order, then the F2 entries whose keys are new. -/
def dictUnion (F1 F2 : FDict) : FDict :=
  F1 ++ F2.filter (fun kv => !(getF F1 kv.1).isSome)

/-- The two mappings assign each shared key the same value, so their
Python union is `dictUnion`. -/
def compatF (F1 F2 : FDict) : Bool :=
  F1.all (fun kv => F2.all (fun kv2 => kv.1 != kv2.1 || kv.2 == kv2.2))

theorem find?_append_of_some {α : Type} {p : α → Bool} {a : α} {l2 : List α} :
    ∀ {l1 : List α}, l1.find? p = some a → (l1 ++ l2).find? p = some a := by
  intro l1
  induction l1 with
  | nil => intro h; cases h
  | cons x rest ih =>
    intro h
    cases hp : p x with
    | true =>
      rw [List.find?_cons_of_pos _ hp] at h
      rw [List.cons_append, List.find?_cons_of_pos _ hp]
      exact h
    | false =>
      rw [List.find?_cons_of_neg _ (by simp [hp])] at h
      rw [List.cons_append, List.find?_cons_of_neg _ (by simp [hp])]
      exact ih h

theorem getF_dictUnion_of_some {F2 : FDict} {k : String} {v : FVal}
    {F1 : FDict} (h : getF F1 k = some v) : getF (dictUnion F1 F2) k = some v := by
  unfold getF at h ⊢
  rcases Option.map_eq_some'.mp h with ⟨kv, hfind, hv⟩
  rw [dictUnion, find?_append_of_some hfind]
  simp [hv]

theorem filterE_mono {p : Record → Except Err Bool}
    {cur cur1 cur2 cur12 : List Record} (hsub : cur.Sublist cur1)
    (hU : filterE p cur = .ok cur2) (hF : filterE p cur1 = .ok cur12) :
    cur2.Sublist cur12 := by
  have hdef1 := filterE_ok_defined hF
  have hdef : ∀ r ∈ cur, ∃ b, p r = .ok b := fun r hr => hdef1 r (hsub.mem hr)
  have e1 := filterE_eq_filter hdef
  have e2 := filterE_eq_filter hdef1
  rw [hU] at e1
  rw [hF] at e2
  simp only [Except.ok.injEq] at e1 e2
  subst e1
  subst e2
  exact hsub.filter _

theorem applyOne_mono {F1 U : FDict}
    (hext : ∀ k v, getF F1 k = some v → getF U k = some v)
    {field : String} {v : FVal} {cur cur1 cur2 cur12 : List Record}
    (hsub : cur.Sublist cur1)
    (hU : applyOne U field v cur = .ok cur2)
    (hF : applyOne F1 field v cur1 = .ok cur12) :
    cur2.Sublist cur12 := by
  unfold applyOne at hU hF
  by_cases hs : hasSuffix field "_min" = true
  · rw [if_pos hs] at hU hF
    cases hgU : getF U (dropLast4 field ++ "_max") with
    | none =>
      cases hgF : getF F1 (dropLast4 field ++ "_max") with
      | none =>
        rw [hgU] at hU
        rw [hgF] at hF
        cases hU
        cases hF
        exact hsub
      | some w => rw [hext _ _ hgF] at hgU; cases hgU
    | some maxv =>
      simp only [hgU] at hU
      cases hgF : getF F1 (dropLast4 field ++ "_max") with
      | none =>
        rw [hgF] at hF
        cases hF
        have h2 : cur2.Sublist cur := by
          by_cases hd : (dropLast4 field == "date") = true
          · rw [if_pos hd] at hU; exact filterE_ok_sublist hU
          · rw [if_neg hd] at hU; exact filterE_ok_sublist hU
        exact h2.trans hsub
      | some maxv1 =>
        have hmv : maxv1 = maxv := by
          have h6 := hext _ _ hgF
          rw [hgU] at h6
          injection h6 with h7
          exact h7.symm
        subst hmv
        simp only [hgF] at hF
        by_cases hd : (dropLast4 field == "date") = true
        · rw [if_pos hd] at hU hF
          exact filterE_mono hsub hU hF
        · rw [if_neg hd] at hU hF
          exact filterE_mono hsub hU hF
  · rw [if_neg hs] at hU hF
    cases hU
    cases hF
    exact hsub

theorem filterSteps_mono {F1 U : FDict}
    (hext : ∀ k v, getF F1 k = some v → getF U k = some v) :
    ∀ {fs : List (String × FVal)} {cur cur1 res res1 : List Record},
      cur.Sublist cur1 →
      filterSteps U fs cur = .ok res →
      filterSteps F1 fs cur1 = .ok res1 →
      res.Sublist res1 := by
  intro fs
  induction fs with
  | nil =>
    intro cur cur1 res res1 hsub hU hF
    cases hU
    cases hF
    exact hsub
  | cons kv rest ih =>
    intro cur cur1 res res1 hsub hU hF
    simp only [filterSteps] at hU hF
    cases haU : applyOne U kv.1 kv.2 cur with
    | error e => simp [haU] at hU
    | ok mid =>
      rw [haU] at hU
      cases haF : applyOne F1 kv.1 kv.2 cur1 with
      | error e => simp [haF] at hF
      | ok mid1 =>
        rw [haF] at hF
        exact ih (applyOne_mono hext hsub haU haF) hU hF

theorem filterSteps_append {F : FDict} :
    ∀ {xs ys : List (String × FVal)} {cur : List Record},
      filterSteps F (xs ++ ys) cur =
        match filterSteps F xs cur with
        | .error e => .error e
        | .ok mid => filterSteps F ys mid := by
  intro xs
  induction xs with
  | nil => intro ys cur; rfl
  | cons kv rest ih =>
    intro ys cur
    simp only [List.cons_append, filterSteps]
    cases ha : applyOne F kv.1 kv.2 cur with
    | error e => rfl
    | ok mid => exact ih

/-! ### The canonical active date filter -/

/-- A filter mapping with both `date` bounds present. -/
def Fdate (m M : ℚ) : FDict := [("date_min", .num m), ("date_max", .num M)]

/-- The year the filter engine extracts from a record: the integer formed
by the first four characters of its `date` string, or 0 when `date` is
missing (from the `"0000-00-00"` default). -/
def yearOf (r : Record) : ℤ :=
  match getV r "date" with
  | some (.str s) => (pyInt? (s.data.take 4)).getD 0
  | _ => 0

/-- The record's `date` value is absent or is a string whose first four
characters parse as an integer. -/
def dateOkRec (r : Record) : Bool :=
  match getV r "date" with
  | none => true
  | some (.str s) => (pyInt? (s.data.take 4)).isSome
  | some (.num _) => false

/-- The record's `date` value breaks `int(...[:4])`: a number (the slice
raises `TypeError`) or a string whose head does not parse (`ValueError`). -/
def badDate (r : Record) : Bool :=
  match getV r "date" with
  | none => false
  | some (.str s) => (pyInt? (s.data.take 4)).isNone
  | some (.num _) => true

theorem filter_income_Fdate (D : List Record) (m M : ℚ) :
    filter_income D (Fdate m M) = filterE (dateKeep (.num m) (.num M)) D := by
  have h1 : hasSuffix "date_min" "_min" = true := by decide
  have h2 : hasSuffix "date_max" "_min" = false := by decide
  have h3 : dropLast4 "date_min" = "date" := by decide
  have h4 : getF [("date_min", FVal.num m), ("date_max", FVal.num M)] ("date" ++ "_max")
      = some (.num M) := by
    have hne : (("date_min" : String) == "date" ++ "_max") = false := by decide
    have heq : (("date_max" : String) == "date" ++ "_max") = true := by decide
    simp [getF, List.find?_cons, hne, heq]
  simp only [filter_income, Fdate, filterSteps, applyOne, h1, h2, h3, h4, if_true, if_false,
    Bool.false_eq_true, beq_self_eq_true, if_pos]
  cases hf : filterE (dateKeep (.num m) (.num M)) D with
  | error e => rfl
  | ok out => rfl

theorem dateChain (m M : ℚ) (y : ℤ) :
    (match leLo (.num m) (some (.num (y : ℚ))) with
      | .error e => .error e
      | .ok false => .ok false
      | .ok true => leHi (some (.num (y : ℚ))) (.num M))
    = Except.ok (ε := Err) (decide (m ≤ (y : ℚ) ∧ (y : ℚ) ≤ M)) := by
  simp only [leLo, leHi]
  by_cases hmy : m ≤ (y : ℚ)
  · simp [hmy]
  · simp [hmy]

theorem dateKeep_of_ok {m M : ℚ} {r : Record} (h : dateOkRec r = true) :
    dateKeep (.num m) (.num M) r
      = .ok (decide (m ≤ (yearOf r : ℚ) ∧ (yearOf r : ℚ) ≤ M)) := by
  unfold dateOkRec at h
  cases hgv : getV r "date" with
  | none =>
    have hy : yearOf r = 0 := by unfold yearOf; rw [hgv]
    have h0 : pyInt? (("0000-00-00" : String).data.take 4) = some 0 := by decide
    rw [hy]
    unfold dateKeep dateStr
    simp only [hgv, h0]
    exact dateChain m M 0
  | some v =>
    rw [hgv] at h
    cases v with
    | num q => simp at h
    | str s =>
      have h2 : (pyInt? (s.data.take 4)).isSome = true := by simpa using h
      cases hp : pyInt? (s.data.take 4) with
      | none => rw [hp] at h2; simp at h2
      | some y =>
        have hy : yearOf r = y := by unfold yearOf; simp [hgv, hp]
        rw [hy]
        unfold dateKeep dateStr
        simp only [hgv, hp]
        exact dateChain m M y

/-- C3: with both `date_min` and `date_max` present and every record's
`date` value well formed, a record survives iff
`min_year <= year <= max_year`, where `year` is the integer formed by the
first four characters of its `date` string and a record without a `date`
field counts as year 0. -/
theorem C3_date_filter (D : List Record) (m M : ℚ) (h : ∀ r ∈ D, dateOkRec r = true) :
    filter_income D (Fdate m M)
      = .ok (D.filter (fun r => decide (m ≤ (yearOf r : ℚ) ∧ (yearOf r : ℚ) ≤ M))) := by
  rw [filter_income_Fdate]
  have hdef : ∀ r ∈ D, ∃ b, dateKeep (.num m) (.num M) r = .ok b :=
    fun r hr => ⟨_, dateKeep_of_ok (h r hr)⟩
  rw [filterE_eq_filter hdef]
  congr 1
  apply List.filter_congr
  intro r hr
  rw [dateKeep_of_ok (h r hr)]
  by_cases hp : (m ≤ (yearOf r : ℚ) ∧ (yearOf r : ℚ) ≤ M)
  · simp [hp]
  · simp [hp]

/-- Witness for C3: the spec's Scenario 2 dataset and date filter. -/
theorem C3_date_filter_witness :
    (∀ r ∈ ([[("revenue", Value.num 100), ("date", Value.str "2020-01-01")],
       [("revenue", Value.num 200), ("date", Value.str "2021-01-01")]] : List Record),
        dateOkRec r = true) ∧
    filter_income [[("revenue", Value.num 100), ("date", Value.str "2020-01-01")],
        [("revenue", Value.num 200), ("date", Value.str "2021-01-01")]] (Fdate 2020 2020)
      = .ok [[("revenue", Value.num 100), ("date", Value.str "2020-01-01")]] := by
  refine ⟨by decide, ?_⟩
  rw [C3_date_filter _ 2020 2020 (by decide)]
  decide

/-- C9: an active date filter raises on any dataset containing a record
whose `date` value is a number or a string whose first four characters do
not parse as an integer. -/
theorem C9_date_filter_raises (D : List Record) (m M : ℚ) (r : Record)
    (hr : r ∈ D) (hbad : badDate r = true) :
    ∃ e, filter_income D (Fdate m M) = .error e := by
  rw [filter_income_Fdate]
  unfold badDate at hbad
  cases hgv : getV r "date" with
  | none => rw [hgv] at hbad; simp at hbad
  | some v =>
    cases v with
    | num q =>
      have hk : dateKeep (.num m) (.num M) r = .error .typeError := by
        unfold dateKeep dateStr
        simp only [hgv]
      exact filterE_error_of_mem hr hk
    | str s =>
      rw [hgv] at hbad
      have hk : dateKeep (.num m) (.num M) r = .error .valueError := by
        unfold dateKeep dateStr
        simp only [hgv, Option.isNone_iff_eq_none.mp hbad]
      exact filterE_error_of_mem hr hk

/-- Witness for C9: a record whose `date` string starts with letters
makes an active date filter raise. -/
theorem C9_date_filter_raises_witness :
    ∃ e, filter_income [[("date", Value.str "abcd-01-01")]] (Fdate 2020 2020) = .error e :=
  C9_date_filter_raises _ 2020 2020 [("date", Value.str "abcd-01-01")]
    (by decide) (by decide)

/-- C7: a successful filter pass is idempotent — running the same filter
mapping on its own output returns that output unchanged. -/
theorem C7_filter_idempotent (D : List Record) (F : FDict) (R : List Record)
    (h : filter_income D F = .ok R) : filter_income R F = .ok R :=
  filterSteps_fix h (List.Sublist.refl R)

/-- Witness for C7: Scenario 1's revenue filter applied twice. -/
theorem C7_filter_idempotent_witness :
    filter_income [[("revenue", Value.num 200)]]
        [("revenue_min", FVal.num 150), ("revenue_max", FVal.num 300)]
      = .ok [[("revenue", Value.num 200)]] :=
  C7_filter_idempotent
    [[("revenue", Value.num 100)], [("revenue", Value.num 200)]]
    [("revenue_min", FVal.num 150), ("revenue_max", FVal.num 300)]
    [[("revenue", Value.num 200)]] (by decide)

/-- C8: adding filters only shrinks the successful result — the union run
yields a subsequence of the F1-only run — and every successful filter
result is a subsequence of the input, so filtering never reorders. -/
theorem C8_filter_monotone :
    (∀ (F1 F2 : FDict) (D R12 R1 : List Record), compatF F1 F2 = true →
      filter_income D (dictUnion F1 F2) = .ok R12 →
      filter_income D F1 = .ok R1 → R12.Sublist R1) ∧
    (∀ (D : List Record) (F : FDict) (R : List Record),
      filter_income D F = .ok R → R.Sublist D) := by
  constructor
  · intro F1 F2 D R12 R1 _ hU hF
    unfold filter_income at hU hF
    have happ : filterSteps (dictUnion F1 F2) (dictUnion F1 F2) D
        = filterSteps (dictUnion F1 F2)
            (F1 ++ F2.filter (fun kv => !(getF F1 kv.1).isSome)) D := rfl
    rw [happ, filterSteps_append] at hU
    cases hmid : filterSteps (dictUnion F1 F2) F1 D with
    | error e => rw [hmid] at hU; cases hU
    | ok mid =>
      rw [hmid] at hU
      have h1 : mid.Sublist R1 :=
        filterSteps_mono (fun _ _ hk => getF_dictUnion_of_some hk)
          (List.Sublist.refl D) hmid hF
      exact (filterSteps_ok_sublist hU).trans h1
  · intro D F R h
    exact filterSteps_ok_sublist h

/-- Witness for C8: a revenue filter joined with a date filter. -/
theorem C8_filter_monotone_witness :
    (([[("revenue", Value.num 200), ("date", Value.str "2021-01-01")]] : List Record).Sublist
        [[("revenue", Value.num 200), ("date", Value.str "2021-01-01")]]) ∧
    (([[("revenue", Value.num 200), ("date", Value.str "2021-01-01")]] : List Record).Sublist
        [[("revenue", Value.num 100), ("date", Value.str "2020-01-01")],
         [("revenue", Value.num 200), ("date", Value.str "2021-01-01")]]) :=
  ⟨C8_filter_monotone.1
      [("revenue_min", FVal.num 150), ("revenue_max", FVal.num 300)]
      [("date_min", FVal.num 2020), ("date_max", FVal.num 2021)]
      [[("revenue", Value.num 100), ("date", Value.str "2020-01-01")],
       [("revenue", Value.num 200), ("date", Value.str "2021-01-01")]]
      _ _ (by decide) (by decide) (by decide),
   C8_filter_monotone.2
      [[("revenue", Value.num 100), ("date", Value.str "2020-01-01")],
       [("revenue", Value.num 200), ("date", Value.str "2021-01-01")]]
      [("revenue_min", FVal.num 150), ("revenue_max", FVal.num 300)]
      _ (by decide)⟩

/-- C2 (code bug): the route passes the raw `fields` mapping straight to
`filter_income`, which ignores the key `revenue` (no `_min`/`_max`
suffix), so the documented range `[1000, 5000]` is never applied and the
out-of-range record survives. -/
theorem C2_fields_not_expanded :
    filter_sort_income [[("revenue", Value.num 6000)]] none true
        [("revenue", FVal.arr [1000, 5000])]
      = .ok [[("revenue", Value.num 6000)]] := by decide

/-! ### The canonical active numeric filter -/

/-- A filter mapping with both bounds present for field `base`. -/
def Fnum (base : String) (m M : ℚ) : FDict :=
  [(base ++ "_min", .num m), (base ++ "_max", .num M)]

/-- The record's value at `base` is a number or absent, so no `TypeError`
arises when it is compared with a numeric bound. -/
def numOkRec (base : String) (r : Record) : Bool :=
  match getV r base with
  | some (.str _) => false
  | _ => true

/-- The documented numeric keep-condition: present values must lie in
`[min, max]`; a missing field compares as `+inf` and so fails. -/
def numPass (base : String) (m M : ℚ) (r : Record) : Bool :=
  match getV r base with
  | some (.num v) => decide (m ≤ v ∧ v ≤ M)
  | _ => false

theorem hasSuffix_append_self (s t : String) : hasSuffix (s ++ t) t = true := by
  unfold hasSuffix
  rw [decide_eq_true_eq, String.data_append]
  exact List.suffix_append s.data t.data

theorem dropLast4_append_min (s : String) : dropLast4 (s ++ "_min") = s := by
  unfold dropLast4
  rw [String.data_append]
  have hd : ("_min" : String).data = ['_', 'm', 'i', 'n'] := by decide
  rw [hd]
  have h1 : s.data ++ ['_', 'm', 'i', 'n'] = (s.data ++ ['_', 'm', 'i']) ++ ['n'] := by simp
  have h2 : s.data ++ ['_', 'm', 'i'] = (s.data ++ ['_', 'm']) ++ ['i'] := by simp
  have h3 : s.data ++ ['_', 'm'] = (s.data ++ ['_']) ++ ['m'] := by simp
  rw [h1, List.dropLast_concat, h2, List.dropLast_concat, h3, List.dropLast_concat,
    List.dropLast_concat]

theorem not_hasSuffix_max_min (s : String) : hasSuffix (s ++ "_max") "_min" = false := by
  unfold hasSuffix
  rw [decide_eq_false_iff_not]
  intro hsuf
  obtain ⟨t, ht⟩ := hsuf
  rw [String.data_append] at ht
  have hd1 : ("_min" : String).data = ['_', 'm', 'i', 'n'] := by decide
  have hd2 : ("_max" : String).data = ['_', 'm', 'a', 'x'] := by decide
  rw [hd1, hd2] at ht
  have := (List.append_inj' ht (by rfl)).2
  simp at this

theorem append_min_ne_append_max (s : String) :
    ((s ++ "_min" : String) == s ++ "_max") = false := by
  apply beq_eq_false_iff_ne.mpr
  intro hcon
  have hdata := congrArg String.data hcon
  rw [String.data_append, String.data_append] at hdata
  have := List.append_cancel_left hdata
  have hd1 : ("_min" : String).data = ['_', 'm', 'i', 'n'] := by decide
  have hd2 : ("_max" : String).data = ['_', 'm', 'a', 'x'] := by decide
  rw [hd1, hd2] at this
  simp at this

theorem filter_income_Fnum (D : List Record) (base : String) (m M : ℚ)
    (hbase : base ≠ "date") :
    filter_income D (Fnum base m M)
      = filterE (numKeep base (.num m) (.num M)) D := by
  have h1 : hasSuffix (base ++ "_min") "_min" = true := hasSuffix_append_self base "_min"
  have h2 : hasSuffix (base ++ "_max") "_min" = false := not_hasSuffix_max_min base
  have h3 : dropLast4 (base ++ "_min") = base := dropLast4_append_min base
  have h4 : getF [(base ++ "_min", FVal.num m), (base ++ "_max", FVal.num M)]
      (base ++ "_max") = some (.num M) := by
    simp [getF, List.find?_cons, append_min_ne_append_max base]
  have h5 : (base == "date") = false := beq_eq_false_iff_ne.mpr hbase
  simp only [filter_income, Fnum, filterSteps, applyOne, h1, h2, h3, h4, h5, if_true,
    if_false, Bool.false_eq_true]
  cases hf : filterE (numKeep base (.num m) (.num M)) D with
  | error e => rfl
  | ok out => rfl

theorem numKeep_of_ok {base : String} {m M : ℚ} {r : Record}
    (h : numOkRec base r = true) :
    numKeep base (.num m) (.num M) r = .ok (numPass base m M r) := by
  unfold numOkRec at h
  unfold numKeep numPass
  cases hgv : getV r base with
  | none => simp [leLo, leHi]
  | some v =>
    rw [hgv] at h
    cases v with
    | str t => simp at h
    | num x =>
      simp only [leLo, leHi]
      by_cases hmx : m ≤ x
      · simp [hmx]
      · simp [hmx]

/-- C4: with both numeric bounds present on a non-date field whose values
are numbers or absent, a record survives iff `min <= record[field] <= max`,
a record without the field counting as `+inf` and hence failing. -/
theorem C4_numeric_filter (D : List Record) (base : String) (m M : ℚ)
    (hbase : base ≠ "date") (h : ∀ r ∈ D, numOkRec base r = true) :
    filter_income D (Fnum base m M) = .ok (D.filter (numPass base m M)) := by
  rw [filter_income_Fnum D base m M hbase]
  have hdef : ∀ r ∈ D, ∃ b, numKeep base (.num m) (.num M) r = .ok b :=
    fun r hr => ⟨_, numKeep_of_ok (h r hr)⟩
  rw [filterE_eq_filter hdef]
  congr 1
  apply List.filter_congr
  intro r hr
  rw [numKeep_of_ok (h r hr)]
  cases numPass base m M r with
  | true => simp
  | false => simp

/-- Witness for C4: Scenario 6 — a record missing the filtered field
fails the filter `field_min=0, field_max=100`. -/
theorem C4_numeric_filter_witness :
    ("b" : String) ≠ "date" ∧
    (∀ r ∈ ([[("a", Value.num 5)]] : List Record), numOkRec "b" r = true) ∧
    filter_income [[("a", Value.num 5)]] (Fnum "b" 0 100) = .ok [] := by
  refine ⟨by decide, by decide, ?_⟩
  rw [C4_numeric_filter _ "b" 0 100 (by decide) (by decide)]
  decide

/-! ### Keys without a range suffix are ignored -/

/-- The filter mapping restricted to its `_min`/`_max`-suffixed entries. -/
def restrictF (F : FDict) : FDict :=
  F.filter (fun kv => hasSuffix kv.1 "_min" || hasSuffix kv.1 "_max")

theorem getF_restrict {F : FDict} {key : String}
    (hkey : hasSuffix key "_max" = true) :
    getF (restrictF F) key = getF F key := by
  induction F with
  | nil => rfl
  | cons kv rest ih =>
    by_cases hkeep : (hasSuffix kv.1 "_min" || hasSuffix kv.1 "_max") = true
    · unfold restrictF at ih ⊢
      simp only [List.filter_cons, hkeep, if_true]
      unfold getF at ih ⊢
      cases hk : (kv.1 == key) with
      | true => simp only [List.find?_cons, hk]
      | false =>
        simp only [List.find?_cons, hk]
        exact ih
    · unfold restrictF at ih ⊢
      have hkeep2 : (hasSuffix kv.1 "_min" || hasSuffix kv.1 "_max") = false := by
        simpa using hkeep
      simp only [List.filter_cons, hkeep2, Bool.false_eq_true, if_false]
      have hk : (kv.1 == key) = false := by
        apply beq_eq_false_iff_ne.mpr
        intro hcon
        rw [hcon] at hkeep
        exact hkeep (by simp [hkey])
      unfold getF at ih ⊢
      simp only [List.find?_cons, hk]
      exact ih

theorem applyOne_restrict (F : FDict) (field : String) (v : FVal)
    (cur : List Record) :
    applyOne (restrictF F) field v cur = applyOne F field v cur := by
  unfold applyOne
  by_cases hs : hasSuffix field "_min" = true
  · rw [if_pos hs, if_pos hs]
    rw [getF_restrict (hasSuffix_append_self (dropLast4 field) "_max")]
  · rw [if_neg hs, if_neg hs]

theorem filterSteps_restrict (F : FDict) :
    ∀ (fs : List (String × FVal)) (cur : List Record),
      filterSteps (restrictF F)
          (fs.filter (fun kv => hasSuffix kv.1 "_min" || hasSuffix kv.1 "_max")) cur
        = filterSteps F fs cur := by
  intro fs
  induction fs with
  | nil => intro cur; rfl
  | cons kv rest ih =>
    intro cur
    by_cases hkeep : (hasSuffix kv.1 "_min" || hasSuffix kv.1 "_max") = true
    · simp only [List.filter_cons, hkeep, if_true]
      simp only [filterSteps, applyOne_restrict F kv.1 kv.2 cur]
      cases ha : applyOne F kv.1 kv.2 cur with
      | error e => rfl
      | ok cur2 => exact ih cur2
    · have hkeep2 : (hasSuffix kv.1 "_min" || hasSuffix kv.1 "_max") = false := by
        simpa using hkeep
      simp only [List.filter_cons, hkeep2, Bool.false_eq_true, if_false]
      have hs : hasSuffix kv.1 "_min" = false := by
        cases hc : hasSuffix kv.1 "_min" with
        | false => rfl
        | true => rw [hc] at hkeep2; simp at hkeep2
      simp only [filterSteps, applyOne, hs, Bool.false_eq_true, if_false]
      exact ih cur

/-- C10: only `_min`/`_max`-suffixed keys matter — restricting the filter
mapping to them never changes the result — and in particular a raw
`fields`-style entry such as `revenue = [1000, 5000]` is silently
ignored. -/
theorem C10_nonsuffixed_ignored :
    (∀ (D : List Record) (F : FDict),
      filter_income D (restrictF F) = filter_income D F) ∧
    (∀ D : List Record,
      filter_income D [("revenue", FVal.arr [1000, 5000])] = .ok D) := by
  constructor
  · intro D F
    unfold filter_income
    have h : filterSteps (restrictF F) (restrictF F) D
        = filterSteps (restrictF F)
            (F.filter (fun kv => hasSuffix kv.1 "_min" || hasSuffix kv.1 "_max")) D := rfl
    rw [h, filterSteps_restrict F F D]
  · intro D
    have h5 : hasSuffix "revenue" "_min" = false := by decide
    simp [filter_income, filterSteps, applyOne, h5]

/-! ### Order facts about the sort comparisons -/

theorem charListLT_irrefl : ∀ l : List Char, charListLT l l = false := by
  intro l
  induction l with
  | nil => rfl
  | cons a as ih => simp [charListLT, lt_self_iff_false, ih]

theorem charListLT_asymm : ∀ l1 l2 : List Char,
    charListLT l1 l2 = true → charListLT l2 l1 = false := by
  intro l1
  induction l1 with
  | nil =>
    intro l2 h
    cases l2 with
    | nil => simp [charListLT] at h
    | cons b bs => rfl
  | cons a as ih =>
    intro l2 h
    cases l2 with
    | nil => simp [charListLT] at h
    | cons b bs =>
      simp only [charListLT] at h ⊢
      rcases lt_trichotomy a b with hab | hab | hab
      · rw [if_neg (lt_asymm hab), if_pos hab]
      · subst hab
        rw [if_neg (lt_irrefl a), if_neg (lt_irrefl a)] at h ⊢
        exact ih bs h
      · rw [if_neg (lt_asymm hab), if_pos hab] at h
        simp at h

theorem charListLT_trans : ∀ l1 l2 l3 : List Char,
    charListLT l1 l2 = true → charListLT l2 l3 = true → charListLT l1 l3 = true := by
  intro l1
  induction l1 with
  | nil =>
    intro l2 l3 h1 h2
    cases l2 with
    | nil => simp [charListLT] at h1
    | cons b bs =>
      cases l3 with
      | nil => simp [charListLT] at h2
      | cons c cs => rfl
  | cons a as ih =>
    intro l2 l3 h1 h2
    cases l2 with
    | nil => simp [charListLT] at h1
    | cons b bs =>
      cases l3 with
      | nil => simp [charListLT] at h2
      | cons c cs =>
        simp only [charListLT] at h1 h2 ⊢
        rcases lt_trichotomy a b with hab | hab | hab
        · rcases lt_trichotomy b c with hbc | hbc | hbc
          · rw [if_pos (hab.trans hbc)]
          · subst hbc
            rw [if_pos hab]
          · rw [if_neg (lt_asymm hbc), if_pos hbc] at h2
            simp at h2
        · subst hab
          rw [if_neg (lt_irrefl a), if_neg (lt_irrefl a)] at h1
          rcases lt_trichotomy a c with hac | hac | hac
          · rw [if_pos hac]
          · subst hac
            rw [if_neg (lt_irrefl a), if_neg (lt_irrefl a)] at h2 ⊢
            exact ih bs cs h1 h2
          · rw [if_neg (lt_asymm hac), if_pos hac] at h2
            simp at h2
        · rw [if_neg (lt_asymm hab), if_pos hab] at h1
          simp at h1

theorem charListLT_conn : ∀ l1 l2 : List Char,
    charListLT l1 l2 = false → charListLT l2 l1 = false → l1 = l2 := by
  intro l1
  induction l1 with
  | nil =>
    intro l2 h1 _
    cases l2 with
    | nil => rfl
    | cons b bs => simp [charListLT] at h1
  | cons a as ih =>
    intro l2 h1 h2
    cases l2 with
    | nil => simp [charListLT] at h2
    | cons b bs =>
      simp only [charListLT] at h1 h2
      rcases lt_trichotomy a b with hab | hab | hab
      · rw [if_pos hab] at h1
        simp at h1
      · subst hab
        rw [if_neg (lt_irrefl a), if_neg (lt_irrefl a)] at h1 h2
        rw [ih bs h1 h2]
      · rw [if_pos hab] at h2
        simp at h2

theorem charListLT_nlt_trans {a b c : List Char} (h1 : charListLT b a = false)
    (h2 : charListLT c b = false) : charListLT c a = false := by
  cases hca : charListLT c a with
  | false => rfl
  | true =>
    cases hbc : charListLT b c with
    | true =>
      rw [charListLT_trans b c a hbc hca] at h1
      simp at h1
    | false =>
      rw [charListLT_conn b c hbc h2, hca] at h1
      simp at h1

/-- The two sort keys have the same Python kind, so comparing them cannot
raise. -/
def comp2 (a b : Value) : Bool := (isNum a && isNum b) || (isStr a && isStr b)

theorem vLT_irrefl (k : Value) : vLT k k = false := by
  cases k with
  | num q => simp [vLT]
  | str s => simp [vLT, charListLT_irrefl]

theorem vLT_asymm {a b : Value} (h : vLT a b = true) : vLT b a = false := by
  cases a with
  | num x =>
    cases b with
    | num y =>
      simp only [vLT, decide_eq_true_eq] at h
      simp [vLT, lt_asymm h]
    | str t => simp [vLT] at h
  | str s =>
    cases b with
    | num y => simp [vLT] at h
    | str t =>
      simp only [vLT] at h ⊢
      exact charListLT_asymm _ _ h

theorem vLT_nlt_trans {x y z : Value} (hzy : comp2 z y = true)
    (hyx : comp2 y x = true) (h1 : vLT y x = false) (h2 : vLT z y = false) :
    vLT z x = false := by
  cases x with
  | num qx =>
    cases y with
    | str t => simp [comp2, isNum, isStr] at hyx
    | num qy =>
      cases z with
      | str u => simp [comp2, isNum, isStr] at hzy
      | num qz =>
        simp only [vLT, decide_eq_false_iff_not] at h1 h2 ⊢
        exact not_lt.mpr (le_trans (not_lt.mp h1) (not_lt.mp h2))
  | str sx =>
    cases y with
    | num qy => simp [comp2, isNum, isStr] at hyx
    | str sy =>
      cases z with
      | num qz => simp [comp2, isNum, isStr] at hzy
      | str sz =>
        simp only [vLT] at h1 h2 ⊢
        exact charListLT_nlt_trans h1 h2

theorem vLT_conn {a b : Value} (hc : comp2 a b = true) (h1 : vLT a b = false)
    (h2 : vLT b a = false) : a = b := by
  cases a with
  | num x =>
    cases b with
    | str t => simp [comp2, isNum, isStr] at hc
    | num y =>
      simp only [vLT, decide_eq_false_iff_not] at h1 h2
      rw [le_antisymm (not_lt.mp h2) (not_lt.mp h1)]
  | str s =>
    cases b with
    | num y => simp [comp2, isNum, isStr] at hc
    | str t =>
      simp only [vLT] at h1 h2
      have hd := charListLT_conn s.data t.data h1 h2
      have hst : s = t := by
        cases s
        cases t
        simp_all
      rw [hst]

/-! ### The stable insertion sort -/

theorem insertK_perm (a : KR) : ∀ l : List KR, (insertK a l).Perm (a :: l) := by
  intro l
  induction l with
  | nil => exact List.Perm.refl _
  | cons b bs ih =>
    unfold insertK
    cases hba : kLT b a with
    | true =>
      simp only [if_true]
      exact (ih.cons b).trans (List.Perm.swap a b bs)
    | false => simp

theorem isortK_perm : ∀ l : List KR, (isortK l).Perm l := by
  intro l
  induction l with
  | nil => exact List.Perm.refl _
  | cons a as ih => exact (insertK_perm a (isortK as)).trans (ih.cons a)

theorem insertK_sorted {a : KR} : ∀ {l : List KR},
    (∀ x ∈ l, comp2 x.1 a.1 = true) →
    (∀ x ∈ l, ∀ y ∈ l, comp2 x.1 y.1 = true) →
    List.Pairwise (fun x y => kLT y x = false) l →
    List.Pairwise (fun x y => kLT y x = false) (insertK a l) := by
  intro l
  induction l with
  | nil => intro _ _ _; simp [insertK]
  | cons b bs ih =>
    intro hca hcl hs
    rcases List.pairwise_cons.mp hs with ⟨hb, hbs⟩
    unfold insertK
    cases hba : kLT b a with
    | true =>
      simp only [if_true]
      apply List.pairwise_cons.mpr
      constructor
      · intro y hy
        rcases List.mem_cons.mp ((insertK_perm a bs).mem_iff.mp hy) with h1 | h2
        · subst h1
          exact vLT_asymm hba
        · exact hb y h2
      · exact ih (fun x hx => hca x (List.mem_cons_of_mem b hx))
          (fun x hx y hy => hcl x (List.mem_cons_of_mem b hx) y (List.mem_cons_of_mem b hy))
          hbs
    | false =>
      simp only [Bool.false_eq_true, if_false]
      apply List.pairwise_cons.mpr
      refine ⟨?_, hs⟩
      intro y hy
      rcases List.mem_cons.mp hy with h1 | h2
      · subst h1
        exact hba
      · exact vLT_nlt_trans
          (hcl y hy b (List.mem_cons_self b bs))
          (hca b (List.mem_cons_self b bs))
          hba (hb y h2)

theorem isortK_sorted : ∀ {l : List KR},
    (∀ x ∈ l, ∀ y ∈ l, comp2 x.1 y.1 = true) →
    List.Pairwise (fun x y => kLT y x = false) (isortK l) := by
  intro l
  induction l with
  | nil => intro _; simp [isortK]
  | cons a as ih =>
    intro hcl
    unfold isortK
    apply insertK_sorted
    · intro x hx
      exact hcl x (List.mem_cons_of_mem a ((isortK_perm as).subset hx))
        a (List.mem_cons_self a as)
    · intro x hx y hy
      exact hcl x (List.mem_cons_of_mem a ((isortK_perm as).subset hx))
        y (List.mem_cons_of_mem a ((isortK_perm as).subset hy))
    · exact ih (fun x hx y hy =>
        hcl x (List.mem_cons_of_mem a hx) y (List.mem_cons_of_mem a hy))

theorem sorted_perm_unique : ∀ {l1 l2 : List KR},
    l1.Perm l2 →
    List.Pairwise (fun x y => kLT y x = false) l1 →
    List.Pairwise (fun x y => kLT y x = false) l2 →
    (∀ x ∈ l1, ∀ y ∈ l1, kLT x y = false → kLT y x = false → x = y) →
    l1 = l2 := by
  intro l1
  induction l1 with
  | nil =>
    intro l2 hp _ _ _
    exact hp.nil_eq
  | cons a t1 ih =>
    intro l2 hp hs1 hs2 htot
    cases l2 with
    | nil =>
      have := hp.symm.nil_eq
      cases this
    | cons b t2 =>
      rcases List.pairwise_cons.mp hs1 with ⟨h1a, h1t⟩
      rcases List.pairwise_cons.mp hs2 with ⟨h2b, h2t⟩
      have hab : a = b := by
        by_cases he : a = b
        · exact he
        · have hbmem : b ∈ a :: t1 := hp.mem_iff.mpr (List.mem_cons_self b t2)
          have hamem : a ∈ b :: t2 := hp.mem_iff.mp (List.mem_cons_self a t1)
          have hb1 : b ∈ t1 := by
            rcases List.mem_cons.mp hbmem with h | h
            · exact absurd h.symm he
            · exact h
          have ha2 : a ∈ t2 := by
            rcases List.mem_cons.mp hamem with h | h
            · exact absurd h he
            · exact h
          exact htot a (List.mem_cons_self a t1) b hbmem (h2b a ha2) (h1a b hb1)
      subst hab
      have hpt : t1.Perm t2 := hp.cons_inv
      rw [ih hpt h1t h2t
        (fun x hx y hy => htot x (List.mem_cons_of_mem a hx) y (List.mem_cons_of_mem a hy))]

theorem filter_insertK_pos {p : KR → Bool}
    (hp : ∀ x y : KR, p x = true → p y = true → kLT y x = false)
    {a : KR} (ha : p a = true) :
    ∀ l : List KR, (insertK a l).filter p = a :: l.filter p := by
  intro l
  induction l with
  | nil => simp [insertK, List.filter_cons, ha]
  | cons b bs ih =>
    unfold insertK
    cases hba : kLT b a with
    | true =>
      have hpb : p b = false := by
        cases hpb : p b with
        | false => rfl
        | true =>
          rw [hp a b ha hpb] at hba
          simp at hba
      simp [List.filter_cons, hpb, ih]
    | false => simp [List.filter_cons, ha]

theorem filter_insertK_neg {p : KR → Bool} {a : KR} (ha : p a = false) :
    ∀ l : List KR, (insertK a l).filter p = l.filter p := by
  intro l
  induction l with
  | nil => simp [insertK, List.filter_cons, ha]
  | cons b bs ih =>
    unfold insertK
    cases hba : kLT b a with
    | true => cases hpb : p b <;> simp [List.filter_cons, hpb, ih]
    | false => simp [List.filter_cons, ha]

theorem filter_isortK {p : KR → Bool}
    (hp : ∀ x y : KR, p x = true → p y = true → kLT y x = false) :
    ∀ l : List KR, (isortK l).filter p = l.filter p := by
  intro l
  induction l with
  | nil => rfl
  | cons a as ih =>
    unfold isortK
    cases hpa : p a with
    | true => rw [filter_insertK_pos hp hpa, ih, List.filter_cons_of_pos hpa]
    | false => rw [filter_insertK_neg hpa, ih, List.filter_cons_of_neg (by simp [hpa])]

theorem filter_pysortK {p : KR → Bool}
    (hp : ∀ x y : KR, p x = true → p y = true → kLT y x = false)
    (ascending : Bool) (l : List KR) :
    (pysortK ascending l).filter p = l.filter p := by
  cases ascending with
  | true => exact filter_isortK hp l
  | false =>
    show ((isortK l.reverse).reverse).filter p = l.filter p
    rw [List.filter_reverse, filter_isortK hp, List.filter_reverse, List.reverse_reverse]

theorem pysortK_perm (ascending : Bool) (l : List KR) :
    (pysortK ascending l).Perm l := by
  cases ascending with
  | true => exact isortK_perm l
  | false =>
    show ((isortK l.reverse).reverse).Perm l
    exact ((List.reverse_perm _).trans (isortK_perm l.reverse)).trans (List.reverse_perm l)

/-! ### Lemmas about the sort engine -/

theorem keyPair_error {field : String} {r : Record} {e : Err}
    (h : keyPair field r = .error e) : keyOf field r = .error e := by
  unfold keyPair at h
  cases hk : keyOf field r with
  | error e2 =>
    rw [hk] at h
    injection h with h2
    rw [h2]
  | ok k => rw [hk] at h; cases h

theorem mapE_ok {field : String} :
    ∀ {l : List Record} {keyed : List KR},
      mapE (keyPair field) l = .ok keyed →
      keyed.map (fun p => p.2) = l ∧ ∀ p ∈ keyed, keyOf field p.2 = .ok p.1 := by
  intro l
  induction l with
  | nil =>
    intro keyed h
    cases h
    exact ⟨rfl, fun p hp => absurd hp (by simp)⟩
  | cons r rest ih =>
    intro keyed h
    simp only [mapE] at h
    cases hk : keyPair field r with
    | error e => simp [hk] at h
    | ok b =>
      rw [hk] at h
      cases hrec : mapE (keyPair field) rest with
      | error e => simp [hrec] at h
      | ok bs =>
        rw [hrec] at h
        simp only [Except.ok.injEq] at h
        subst h
        obtain ⟨ih1, ih2⟩ := ih hrec
        have hb : b.2 = r ∧ keyOf field b.2 = .ok b.1 := by
          unfold keyPair at hk
          cases hko : keyOf field r with
          | error e => rw [hko] at hk; cases hk
          | ok k =>
            rw [hko] at hk
            injection hk with hk2
            subst hk2
            exact ⟨rfl, hko⟩
        constructor
        · simp only [List.map_cons, hb.1, ih1]
        · intro p hp
          rcases List.mem_cons.mp hp with h1 | h2
          · subst h1
            exact hb.2
          · exact ih2 p h2

theorem mapE_error {field : String} :
    ∀ {l : List Record} {e : Err}, mapE (keyPair field) l = .error e →
      ∃ r ∈ l, keyPair field r = .error e := by
  intro l
  induction l with
  | nil => intro e h; cases h
  | cons r rest ih =>
    intro e h
    simp only [mapE] at h
    cases hk : keyPair field r with
    | error e2 =>
      rw [hk] at h
      injection h with h2
      subst h2
      exact ⟨r, List.mem_cons_self r rest, hk⟩
    | ok b =>
      rw [hk] at h
      cases hrec : mapE (keyPair field) rest with
      | error e2 =>
        rw [hrec] at h
        injection h with h2
        subst h2
        obtain ⟨r2, hr2, he2⟩ := ih hrec
        exact ⟨r2, List.mem_cons_of_mem r hr2, he2⟩
      | ok bs => rw [hrec] at h; cases h

theorem keyOf_ne_invalid (f g : String) (r : Record) :
    keyOf f r ≠ .error (.invalidField g) := by
  unfold keyOf
  cases hgv : getV r f with
  | none => simp
  | some v =>
    by_cases hf : (f == "date") = true
    · cases v with
      | str s => cases hp : pyInt? (s.data.take 4) <;> simp [hf, hp]
      | num q => simp [hf]
    · simp [hf]

theorem allSameKind_comp2 {ks : List Value} (h : allSameKind ks = true) :
    ∀ x ∈ ks, ∀ y ∈ ks, comp2 x y = true := by
  intro x hx y hy
  rcases Bool.or_eq_true_iff.mp h with hn | hs
  · have hxn := List.all_eq_true.mp hn x hx
    have hyn := List.all_eq_true.mp hn y hy
    simp [comp2, hxn, hyn]
  · have hxs := List.all_eq_true.mp hs x hx
    have hys := List.all_eq_true.mp hs y hy
    simp [comp2, hxs, hys]

theorem nodup_keys_eq : ∀ {l : List KR}, (l.map (fun p => p.1)).Nodup →
    ∀ {a b : KR}, a ∈ l → b ∈ l → a.1 = b.1 → a = b := by
  intro l
  induction l with
  | nil => intro _ a b ha; cases ha
  | cons c t ih =>
    intro hnd a b ha hb hk
    rw [List.map_cons, List.nodup_cons] at hnd
    obtain ⟨hnotin, hnd2⟩ := hnd
    rcases List.mem_cons.mp ha with ha1 | ha2
    · rcases List.mem_cons.mp hb with hb1 | hb2
      · rw [ha1, hb1]
      · subst ha1
        have hbm : a.1 ∈ List.map (fun p => p.1) t := by
          rw [hk]
          exact List.mem_map_of_mem _ hb2
        exact absurd hbm hnotin
    · rcases List.mem_cons.mp hb with hb1 | hb2
      · subst hb1
        have ham : b.1 ∈ List.map (fun p => p.1) t := by
          rw [← hk]
          exact List.mem_map_of_mem _ ha2
        exact absurd ham hnotin
      · exact ih hnd2 ha2 hb2 hk

/-- C5: sorting an empty sequence returns empty for any field, and on a
nonempty sequence the `InvalidFieldError` (naming the field) is raised
exactly when the field is absent from the first record — only the first
record is consulted for the presence check. -/
theorem C5_sort_field_check :
    (∀ (f : String) (a : Bool), sort_income [] f a = .ok []) ∧
    (∀ (r0 : Record) (rest : List Record) (f : String) (a : Bool),
      sort_income (r0 :: rest) f a = .error (.invalidField f) ↔ getV r0 f = none) := by
  constructor
  · intro f a
    rfl
  · intro r0 rest f a
    constructor
    · intro h
      cases hgv : getV r0 f with
      | none => rfl
      | some v =>
        simp only [sort_income, hgv, Option.isNone_some, Bool.false_eq_true, if_false] at h
        cases hm : mapE (keyPair f) (r0 :: rest) with
        | error e =>
          simp only [hm] at h
          injection h with he
          obtain ⟨r, _, hre⟩ := mapE_error hm
          rw [he] at hre
          exact absurd (keyPair_error hre) (keyOf_ne_invalid f f r)
        | ok keyed =>
          simp only [hm] at h
          by_cases hks : allSameKind (keyed.map (fun p => p.1)) = true
          · rw [if_pos hks] at h
            cases h
          · rw [if_neg hks] at h
            injection h with he
            cases he
    · intro hgv
      unfold sort_income
      simp [hgv]

/-- Turning a record-level key predicate into the pair-level one on the
key-decorated list. -/
theorem map_snd_filter_key {field : String} (k : Value) :
    ∀ {m : List KR}, (∀ p ∈ m, keyOf field p.2 = .ok p.1) →
      (m.map (fun p => p.2)).filter (fun r => decide (keyOf field r = .ok k))
        = (m.filter (fun p => decide (p.1 = k))).map (fun p => p.2) := by
  intro m
  induction m with
  | nil => intro _; rfl
  | cons p t ih =>
    intro h
    have hp := h p (List.mem_cons_self p t)
    have hrest := ih (fun q hq => h q (List.mem_cons_of_mem p hq))
    simp only [List.map_cons, List.filter_cons, hp]
    by_cases hk : p.1 = k
    · simp [hk, hrest]
    · have h1 : (decide ((Except.ok p.1 : Except Err Value) = .ok k)) = false := by
        simp [hk]
      have h2 : (decide (p.1 = k)) = false := by simp [hk]
      simp only [h1, h2, Bool.false_eq_true, if_false, hrest]

/-- C6: a successful sort is stable in both directions — for every key
value, the subsequence of records carrying that key is exactly the
subsequence they formed in the input. -/
theorem C6_sort_stable (D : List Record) (f : String) (a : Bool)
    (out : List Record) (h : sort_income D f a = .ok out) (k : Value) :
    out.filter (fun r => decide (keyOf f r = .ok k))
      = D.filter (fun r => decide (keyOf f r = .ok k)) := by
  cases D with
  | nil =>
    simp only [sort_income] at h
    injection h with h2
    rw [← h2]
  | cons r0 rest =>
    simp only [sort_income] at h
    by_cases hg : ((getV r0 f).isNone) = true
    · rw [if_pos hg] at h
      cases h
    · rw [if_neg hg] at h
      cases hm : mapE (keyPair f) (r0 :: rest) with
      | error e =>
        simp only [hm] at h
        simp at h
      | ok keyed =>
        simp only [hm] at h
        by_cases hks : allSameKind (keyed.map (fun p => p.1)) = true
        · rw [if_pos hks] at h
          injection h with h2
          subst h2
          obtain ⟨hsnd, hmem⟩ := mapE_ok hm
          have hmem2 : ∀ p ∈ pysortK a keyed, keyOf f p.2 = .ok p.1 :=
            fun p hp => hmem p ((pysortK_perm a keyed).subset hp)
          have hpred : ∀ x y : KR, decide (x.1 = k) = true → decide (y.1 = k) = true →
              kLT y x = false := by
            intro x y hx hy
            have hx2 : x.1 = k := of_decide_eq_true hx
            have hy2 : y.1 = k := of_decide_eq_true hy
            unfold kLT
            rw [hx2, hy2]
            exact vLT_irrefl k
          rw [map_snd_filter_key k hmem2, filter_pysortK hpred a keyed,
            ← map_snd_filter_key k hmem, hsnd]
        · rw [if_neg hks] at h
          cases h

/-- Witness for C6: sorting ascending by `a` moves the key-1 record to
the front while the two key-2 records keep their relative order. -/
theorem C6_sort_stable_witness :
    sort_income [[("a", Value.num 2), ("b", Value.num 1)], [("a", Value.num 1)],
        [("a", Value.num 2), ("b", Value.num 3)]] "a" true
      = .ok [[("a", Value.num 1)], [("a", Value.num 2), ("b", Value.num 1)],
          [("a", Value.num 2), ("b", Value.num 3)]] ∧
    ([[("a", Value.num 1)], [("a", Value.num 2), ("b", Value.num 1)],
        [("a", Value.num 2), ("b", Value.num 3)]] : List Record).filter
        (fun r => decide (keyOf "a" r = .ok (.num 2)))
      = ([[("a", Value.num 2), ("b", Value.num 1)], [("a", Value.num 1)],
          [("a", Value.num 2), ("b", Value.num 3)]] : List Record).filter
        (fun r => decide (keyOf "a" r = .ok (.num 2))) :=
  ⟨by decide,
   C6_sort_stable
     [[("a", Value.num 2), ("b", Value.num 1)], [("a", Value.num 1)],
      [("a", Value.num 2), ("b", Value.num 3)]]
     "a" true
     [[("a", Value.num 1)], [("a", Value.num 2), ("b", Value.num 1)],
      [("a", Value.num 2), ("b", Value.num 3)]]
     (by decide) (.num 2)⟩

/-- C1 (counterexample): with two records tied on the sort key,
descending sort (stable, like CPython's `reverse=True`) returns them in
input order, which is not the reverse of the ascending sort. -/
theorem C1_counterexample :
    sort_income [[("a", Value.num 1), ("b", Value.num 1)],
        [("a", Value.num 1), ("b", Value.num 2)]] "a" false
      = .ok [[("a", Value.num 1), ("b", Value.num 1)],
          [("a", Value.num 1), ("b", Value.num 2)]] ∧
    sort_income [[("a", Value.num 1), ("b", Value.num 1)],
        [("a", Value.num 1), ("b", Value.num 2)]] "a" true
      = .ok [[("a", Value.num 1), ("b", Value.num 1)],
          [("a", Value.num 1), ("b", Value.num 2)]] ∧
    ([[("a", Value.num 1), ("b", Value.num 1)],
      [("a", Value.num 1), ("b", Value.num 2)]] : List Record).reverse
      ≠ [[("a", Value.num 1), ("b", Value.num 1)],
         [("a", Value.num 1), ("b", Value.num 2)]] :=
  ⟨by decide, by decide, by decide⟩

/-- C1 (amended): when no two records share a sort key, descending sort
is exactly the reverse of ascending sort; with ties it is not, since both
directions are stable. -/
theorem C1_amended (D : List Record) (f : String) (outd outa : List Record)
    (hd : sort_income D f false = .ok outd)
    (ha : sort_income D f true = .ok outa)
    (hnd : (D.map (keyOf f)).Nodup) :
    outd = outa.reverse := by
  cases D with
  | nil =>
    simp only [sort_income] at hd ha
    injection hd with hd2
    injection ha with ha2
    rw [← hd2, ← ha2]
    rfl
  | cons r0 rest =>
    simp only [sort_income] at hd ha
    by_cases hg : ((getV r0 f).isNone) = true
    · rw [if_pos hg] at hd
      cases hd
    · rw [if_neg hg] at hd ha
      cases hm : mapE (keyPair f) (r0 :: rest) with
      | error e =>
        simp only [hm] at hd
        simp at hd
      | ok keyed =>
        simp only [hm] at hd ha
        by_cases hks : allSameKind (keyed.map (fun p => p.1)) = true
        · rw [if_pos hks] at hd ha
          injection hd with hd2
          injection ha with ha2
          subst hd2
          subst ha2
          obtain ⟨hsnd, hmem⟩ := mapE_ok hm
          have hcomp := allSameKind_comp2 hks
          have hcompk : ∀ x ∈ keyed, ∀ y ∈ keyed, comp2 x.1 y.1 = true := fun x hx y hy =>
            hcomp x.1 (List.mem_map_of_mem _ hx) y.1 (List.mem_map_of_mem _ hy)
          have hnd2 : (keyed.map (fun p => p.1)).Nodup := by
            have e1 : (r0 :: rest).map (keyOf f)
                = keyed.map (fun p => Except.ok p.1) := by
              rw [← hsnd, List.map_map]
              exact List.map_congr_left (fun p hp => hmem p hp)
            rw [e1] at hnd
            have e2 : keyed.map (fun p => (Except.ok p.1 : Except Err Value))
                = (keyed.map (fun p => p.1)).map (fun k => (Except.ok k : Except Err Value)) := by
              rw [List.map_map]
              rfl
            rw [e2] at hnd
            exact hnd.of_map
          have huniq : isortK keyed.reverse = isortK keyed := by
            apply sorted_perm_unique
            · exact (isortK_perm _).trans
                ((List.reverse_perm keyed).trans (isortK_perm keyed).symm)
            · apply isortK_sorted
              intro x hx y hy
              exact hcompk x (List.mem_reverse.mp hx) y (List.mem_reverse.mp hy)
            · exact isortK_sorted hcompk
            · intro x hx y hy h1 h2
              have hx2 : x ∈ keyed := List.mem_reverse.mp ((isortK_perm _).subset hx)
              have hy2 : y ∈ keyed := List.mem_reverse.mp ((isortK_perm _).subset hy)
              have hkey : x.1 = y.1 := vLT_conn (hcompk x hx2 y hy2) h1 h2
              exact nodup_keys_eq hnd2 hx2 hy2 hkey
          show ((pysortK false keyed).map (fun p => p.2))
            = ((pysortK true keyed).map (fun p => p.2)).reverse
          rw [← List.map_reverse]
          unfold pysortK
          simp only [if_true, Bool.false_eq_true, if_false]
          rw [huniq]
        · rw [if_neg hks] at hd
          cases hd

/-- Witness for C1 (amended): two records with distinct keys — descending
output is the reverse of ascending output. -/
theorem C1_amended_witness :
    ([[("a", Value.num 2)], [("a", Value.num 1)]] : List Record)
      = ([[("a", Value.num 1)], [("a", Value.num 2)]] : List Record).reverse :=
  C1_amended [[("a", Value.num 2)], [("a", Value.num 1)]] "a"
    [[("a", Value.num 2)], [("a", Value.num 1)]]
    [[("a", Value.num 1)], [("a", Value.num 2)]]
    (by decide) (by decide) (by decide)

end ProfitPrincess
